import Mathlib

/-!
Shallow embedding of the discovery-document diff engine
(`google-api-go-generator/internal/disco/diff.go`).

Go maps are modelled as association lists (`List (String × _)`); Go's
`[]*DiffEntry` is modelled as `List DiffEntry` (the engine never appends a
nil pointer, and a nil slice and an empty slice behave identically in every
place the engine tests `!= nil`, since slices are only ever grown by
appending at least one element).
-/

namespace Disco

/-- `ChangeType` is a string type in the source (`type ChangeType string`). -/
abbrev ChangeType := String

/-- `AddChange ChangeType = "ADD"` -/
def AddChange : ChangeType := "ADD"

/-- `ModifyChange ChangeType = "MODIFY"` -/
def ModifyChange : ChangeType := "MODIFY"

/-- `DeleteChange ChangeType = "DELETED"` -/
def DeleteChange : ChangeType := "DELETED"

/-- `ElementKind` is a string type in the source (`type ElementKind string`). -/
abbrev ElementKind := String

def SchemaKind : ElementKind := "SCHEMA"
def ResourceKind : ElementKind := "RESOURCE"
def MethodKind : ElementKind := "METHOD"
def StringFieldKind : ElementKind := "STRING_FIELD"
def BoolFieldKind : ElementKind := "BOOL_FIELD"
def StringListKind : ElementKind := "LIST_OF_STRINGS"
def MediaUploadKind : ElementKind := "MEDIA_UPLOAD"
def ParameterKind : ElementKind := "METHOD_PARAMETER"

/-- `DiffOptions` is a `uint16` bitmask; we model it as a `Nat` whose
meaningful bits are the low 16 (all mask operations are bitwise, so values
stay below `2 ^ 16` whenever the inputs do). -/
abbrev DiffOptions := Nat

def VersioningOption : DiffOptions := 1
def DescriptionOption : DiffOptions := 2
def ServiceOption : DiffOptions := 4
def SchemaOption : DiffOptions := 8
def ResourceOption : DiffOptions := 16

/-- `AllOptions = DiffOptions(^uint16(0))`, i.e. all 16 bits set. -/
def AllOptions : DiffOptions := 65535

/-- `func Set(mask, option DiffOptions) DiffOptions { return mask | option }` -/
def Set (mask option : DiffOptions) : DiffOptions := mask ||| option

/-- `func Clear(mask, option DiffOptions) DiffOptions { return mask &^ option }` -/
def Clear (mask option : DiffOptions) : DiffOptions := mask &&& (AllOptions - (AllOptions &&& option))

/-- `func Has(mask, option DiffOptions) bool { return mask&option != 0 }` -/
def Has (mask option : DiffOptions) : Bool := mask &&& option != 0

/-- The diff tree node, mirroring

```go
type DiffEntry struct {
    ChangeType  ChangeType
    ElementKind ElementKind
    ElementID   string
    OldValue    string
    NewValue    string
    Children    []*DiffEntry
}
``` -/
inductive DiffEntry where
  | mk (ChangeType : ChangeType) (ElementKind : ElementKind) (ElementID : String)
       (OldValue : String) (NewValue : String) (Children : List DiffEntry)


def DiffEntry.ChangeType : DiffEntry → ChangeType
  | .mk c _ _ _ _ _ => c

def DiffEntry.ElementKind : DiffEntry → ElementKind
  | .mk _ k _ _ _ _ => k

def DiffEntry.ElementID : DiffEntry → String
  | .mk _ _ i _ _ _ => i

def DiffEntry.OldValue : DiffEntry → String
  | .mk _ _ _ o _ _ => o

def DiffEntry.NewValue : DiffEntry → String
  | .mk _ _ _ _ n _ => n

def DiffEntry.Children : DiffEntry → List DiffEntry
  | .mk _ _ _ _ _ ch => ch

/-- Modelled from the spec: the repository's `Schema` struct (declared in the
disco package's document model, which is not among the supplied sources).
The diff engine reads exactly the scalar fields named in
`compareSingleSchema`: id, type, format, description, reference-target,
default value, validation pattern, name — all strings per the spec's data
model (§3 "Schema: identity fields (id, name, type, format,
reference-target, default value, validation pattern), a description
string"). -/
structure Schema where
  ID : String
  «Type» : String
  Format : String
  Description : String
  Ref : String
  Default : String
  Pattern : String
  Name : String


/-- The Go zero value `&Schema{}` restricted to the compared fields. -/
def zeroSchema : Schema := ⟨"", "", "", "", "", "", "", ""⟩

/-- Modelled from the spec: the repository's `Method` struct (document model
not among supplied sources). The diff engine reads the fields named in
`compareSingleMethod`: name, id, path, http method verb, description
(strings) and the supports-media-download capability flag (boolean), per
spec §3. -/
structure Method where
  Name : String
  ID : String
  Path : String
  HTTPMethod : String
  Description : String
  SupportsMediaDownload : Bool


/-- The Go zero value `&Method{}` restricted to the compared fields. -/
def zeroMethod : Method := ⟨"", "", "", "", "", false⟩

/-- Modelled from the spec: the repository's `Resource` struct (document
model not among supplied sources): a name, an ordered sequence of nested
resources, and an ordered sequence of methods (spec §3). -/
inductive Resource where
  | mk (Name : String) (Resources : List Resource) (Methods : List Method)


def Resource.Name : Resource → String
  | .mk n _ _ => n

def Resource.Resources : Resource → List Resource
  | .mk _ rs _ => rs

def Resource.Methods : Resource → List Method
  | .mk _ _ ms => ms

/-- The Go zero value `&Resource{}`. -/
def zeroResource : Resource := .mk "" [] []

/-- Modelled from the spec: the repository's `Document` struct (document
model not among supplied sources). The diff engine reads the scalar fields
named in `compareIdentifiers`, `compareVersioning` and
`compareServiceOptions`, the schema map and the resource list (spec §3). -/
structure Document where
  ID : String
  Name : String
  Revision : String
  Title : String
  RootURL : String
  ServicePath : String
  BasePath : String
  DocumentationLink : String
  Schemas : List (String × Schema)
  Resources : List Resource


/-- Go map read `m[k]` for the schema map. A Go map has unique keys, so
first-match association-list lookup (`List.lookup`) is faithful. -/
def lookupSchema (m : List (String × Schema)) (k : String) : Option Schema :=
  List.lookup k m

/-- `func diffString(id, old, new string) *DiffEntry` — `none` models the
nil pointer returned when the values are equal. -/
def diffString (id old new : String) : Option DiffEntry :=
  if old ≠ new then
    some (.mk ModifyChange StringFieldKind id old new [])
  else
    none

/-- Go's `fmt.Sprintf("%t", b)`. -/
def formatBool (b : Bool) : String := if b then "true" else "false"

/-- `func diffBool(id string, old, new bool) *DiffEntry` -/
def diffBool (id : String) (old new : Bool) : Option DiffEntry :=
  if old ≠ new then
    some (.mk ModifyChange BoolFieldKind id (formatBool old) (formatBool new) [])
  else
    none

/-- The per-field behaviour of `getFieldDiffs` for a string field: the field
is skipped when it is named `Description` and `checkDescriptions` is unset;
otherwise a differing value yields one Modify entry. -/
def stringFieldDiff (checkDescriptions : Bool) (fn old new : String) : List DiffEntry :=
  if checkDescriptions || fn ≠ "Description" then
    if old ≠ new then
      [.mk ModifyChange StringFieldKind fn old new []]
    else []
  else []

/-- The per-field behaviour of `getFieldDiffs` for a bool field (never
description-gated). -/
def boolFieldDiff (fn : String) (old new : Bool) : List DiffEntry :=
  if old ≠ new then
    [.mk ModifyChange BoolFieldKind fn (formatBool old) (formatBool new) []]
  else []

/-- `compareIdentifiers`: `getFieldDiffs(old, new, []string{"ID", "Name"}, false)`. -/
def compareIdentifiers (old new : Document) : List DiffEntry :=
  stringFieldDiff false "ID" old.ID new.ID ++
  stringFieldDiff false "Name" old.Name new.Name

/-- `compareVersioning`: `getFieldDiffs(old, new, []string{"Revision"}, false)`. -/
def compareVersioning (old new : Document) : List DiffEntry :=
  stringFieldDiff false "Revision" old.Revision new.Revision

/-- `compareServiceOptions`: `getFieldDiffs(old, new, []string{"Title",
"RootURL", "ServicePath", "BasePath", "DocumentationLink"}, false)`. -/
def compareServiceOptions (old new : Document) : List DiffEntry :=
  stringFieldDiff false "Title" old.Title new.Title ++
  stringFieldDiff false "RootURL" old.RootURL new.RootURL ++
  stringFieldDiff false "ServicePath" old.ServicePath new.ServicePath ++
  stringFieldDiff false "BasePath" old.BasePath new.BasePath ++
  stringFieldDiff false "DocumentationLink" old.DocumentationLink new.DocumentationLink

/-- `compareSingleSchema`: the source calls
`getFieldDiffs(old, new, []string{"ID", "Type", "Format", "Description",
"Ref", "Default", "Pattern", "Name"}, false)` — note the literal `false`:
the `checkDescriptions` parameter is accepted but NOT forwarded, so the
`Description` field is never compared. -/
def compareSingleSchema (old new : Schema) (_checkDescriptions : Bool) : List DiffEntry :=
  stringFieldDiff false "ID" old.ID new.ID ++
  stringFieldDiff false "Type" old.«Type» new.«Type» ++
  stringFieldDiff false "Format" old.Format new.Format ++
  stringFieldDiff false "Description" old.Description new.Description ++
  stringFieldDiff false "Ref" old.Ref new.Ref ++
  stringFieldDiff false "Default" old.Default new.Default ++
  stringFieldDiff false "Pattern" old.Pattern new.Pattern ++
  stringFieldDiff false "Name" old.Name new.Name

/-- `compareSingleMethod`: the source calls
`getFieldDiffs(old, new, []string{"Name", "ID", "Path", "HTTPMethod",
"Description", "SupportsMediaDownload"}, false)` — again the literal
`false`, so `Description` is never compared. -/
def compareSingleMethod (old new : Method) (_checkDescriptions : Bool) : List DiffEntry :=
  stringFieldDiff false "Name" old.Name new.Name ++
  stringFieldDiff false "ID" old.ID new.ID ++
  stringFieldDiff false "Path" old.Path new.Path ++
  stringFieldDiff false "HTTPMethod" old.HTTPMethod new.HTTPMethod ++
  stringFieldDiff false "Description" old.Description new.Description ++
  boolFieldDiff "SupportsMediaDownload" old.SupportsMediaDownload new.SupportsMediaDownload

/-- `func compareMethods(old, new MethodList, checkDescriptions bool)
[]*DiffEntry { return nil }` — a stub in the source: it always returns nil. -/
def compareMethods (_old _new : List Method) (_checkDescriptions : Bool) : List DiffEntry :=
  []

/-- Lexicographic ≤ on character lists, written out so that it computes (we
prove below that it agrees with the library's lexicographic order). -/
def listCharLe : List Char → List Char → Bool
  | [], _ => true
  | _ :: _, [] => false
  | a :: as, b :: bs =>
      if a < b then true
      else if b < a then false
      else listCharLe as bs

/-- Lexicographic ≤ on strings (UTF-8 byte order, as `sort.Strings` uses,
coincides with code-point order). -/
def strLe (a b : String) : Bool := listCharLe a.data b.data

/-- `sort.Strings`: ascending lexicographic sort. -/
def sortStrings (l : List String) : List String :=
  List.insertionSort (fun a b => strLe a b = true) l

/-- The sorted key union computed at the top of `compareSchemas`: keys of
both schema maps collected into a set (`map[string]bool`), then sorted. -/
def schemaKeys (old new : Document) : List String :=
  sortStrings ((old.Schemas.map Prod.fst ++ new.Schemas.map Prod.fst).dedup)

/-- The body of the per-key loop of `compareSchemas` for one key `k`:
classifies the key as added / deleted / (possibly) modified and builds the
composite entry. -/
def schemaEntryForKey (old new : Document) (checkDescriptions : Bool) (k : String) :
    List DiffEntry :=
  match lookupSchema old.Schemas k, lookupSchema new.Schemas k with
  | none, none => []
  | none, some newSchema =>
      let fieldDiffs := compareSingleSchema zeroSchema newSchema checkDescriptions
      if fieldDiffs.isEmpty then []
      else
        -- the loop amends each child diff in place to AddChange while
        -- appending it to entry.Children
        [.mk AddChange SchemaKind ("Schemas." ++ k) "" ""
          (fieldDiffs.map fun f =>
            .mk AddChange f.ElementKind f.ElementID f.OldValue f.NewValue f.Children)]
  | some _, none =>
      [.mk DeleteChange SchemaKind ("Schemas." ++ k) "" "" []]
  | some oldSchema, some newSchema =>
      let fieldDiffs := compareSingleSchema oldSchema newSchema checkDescriptions
      if fieldDiffs.isEmpty then []
      else
        [.mk ModifyChange SchemaKind ("Schemas." ++ k) "" "" fieldDiffs]

/-- `func compareSchemas(old, new *Document, checkDescriptions bool)
[]*DiffEntry`: walk the sorted key union, appending the entries produced for
each key. -/
def compareSchemas (old new : Document) (checkDescriptions : Bool) : List DiffEntry :=
  ((schemaKeys old new).map (schemaEntryForKey old new checkDescriptions)).flatten

/-- The Go map build `for _, m := range list { m[m.Name] = m }` followed by
the read `m[k]`: the LAST element with the given name wins. -/
def resLookup (l : List Resource) (k : String) : Option Resource :=
  l.foldl (fun acc r => if r.Name = k then some r else acc) none

/-- The sorted key union computed in `compareResources`: names of both
resource lists collected into a set, then sorted. -/
def resourceKeys (oldList newList : List Resource) : List String :=
  sortStrings ((oldList.map Resource.Name ++ newList.map Resource.Name).dedup)

theorem resLookup_mem_aux (l : List Resource) (k : String) (acc : Option Resource)
    (r : Resource) (h : l.foldl (fun acc r => if r.Name = k then some r else acc) acc = some r) :
    r ∈ l ∨ acc = some r := by
  induction l generalizing acc with
  | nil => exact Or.inr h
  | cons x xs ih =>
      simp only [List.foldl_cons] at h
      rcases ih _ h with hmem | hacc
      · exact Or.inl (List.mem_cons_of_mem _ hmem)
      · by_cases hx : x.Name = k
        · simp [hx] at hacc
          exact Or.inl (hacc ▸ List.mem_cons_self _ _)
        · simp [hx] at hacc
          exact Or.inr hacc

theorem resLookup_mem {l : List Resource} {k : String} {r : Resource}
    (h : resLookup l k = some r) : r ∈ l := by
  rcases resLookup_mem_aux l k none r h with hmem | habs
  · exact hmem
  · cases habs

theorem sizeOf_resources_lt (r : Resource) : sizeOf r.Resources < sizeOf r := by
  cases r with
  | mk n rs ms => simp [Resource.Resources]; omega

/-- `func amendChangeType(entries []*DiffEntry, newType ChangeType)` applied
to a single entry: rewrite its change type and, recursively, its whole
subtree (the Go version mutates in place; this is the same transform,
functionally). -/
def amendEntry (newType : ChangeType) : DiffEntry → DiffEntry
  | .mk _ k i o n ch =>
      .mk newType k i o n (ch.attach.map fun c => amendEntry newType c.1)
termination_by e => sizeOf e
decreasing_by
  have := List.sizeOf_lt_sizeOf_of_mem c.2
  simp only [DiffEntry.mk.sizeOf_spec]
  omega

/-- `func amendChangeType(entries []*DiffEntry, newType ChangeType)`. -/
def amendChangeType (entries : List DiffEntry) (newType : ChangeType) : List DiffEntry :=
  entries.map (amendEntry newType)

mutual

/-- The body of the per-key loop of `compareResources` for one key `k`. -/
def resourceEntryForKey (oldList newList : List Resource) (checkDescriptions : Bool)
    (k : String) : List DiffEntry :=
  match hOld : resLookup oldList k, hNew : resLookup newList k with
  | none, none => []
  | none, some newResource =>
      let fieldDiffs := compareSingleResource zeroResource newResource checkDescriptions
      if fieldDiffs.isEmpty then []
      else
        -- recursively amend this, since all "modifications" are actually additions
        [.mk AddChange ResourceKind ("Resources." ++ k) "" ""
          (amendChangeType fieldDiffs AddChange)]
  | some _, none =>
      [.mk DeleteChange ResourceKind ("Resources." ++ k) "" "" []]
  | some oldResource, some newResource =>
      let fieldDiffs := compareSingleResource oldResource newResource checkDescriptions
      if fieldDiffs.isEmpty then []
      else
        [.mk ModifyChange ResourceKind ("Resources." ++ k) "" "" fieldDiffs]
termination_by (sizeOf oldList + sizeOf newList + 1, 0, 0)
decreasing_by
  · apply Prod.Lex.left
    have hm := List.sizeOf_lt_sizeOf_of_mem (resLookup_mem hNew)
    have h2 := sizeOf_resources_lt newResource
    have h0 : zeroResource.Resources = [] := rfl
    have h3 : 1 ≤ sizeOf oldList := by cases oldList <;> simp <;> omega
    rw [h0]
    simp only [List.nil.sizeOf_spec]
    omega
  · apply Prod.Lex.left
    have hmo := List.sizeOf_lt_sizeOf_of_mem (resLookup_mem hOld)
    have hmn := List.sizeOf_lt_sizeOf_of_mem (resLookup_mem hNew)
    have h2 := sizeOf_resources_lt oldResource
    have h3 := sizeOf_resources_lt newResource
    omega

/-- The per-key loop of `compareResources`, walking the sorted key union. -/
def compareResourceKeys (oldList newList : List Resource) (checkDescriptions : Bool) :
    List String → List DiffEntry
  | [] => []
  | k :: rest =>
      resourceEntryForKey oldList newList checkDescriptions k ++
      compareResourceKeys oldList newList checkDescriptions rest
termination_by keys => (sizeOf oldList + sizeOf newList + 1, 1, keys.length)
decreasing_by
  · exact Prod.Lex.right _ (Prod.Lex.left _ _ (by omega))
  · exact Prod.Lex.right _ (Prod.Lex.right _ (by simp))

/-- `func compareResources(oldList, newList ResourceList, checkDescriptions
bool) []*DiffEntry` -/
def compareResources (oldList newList : List Resource) (checkDescriptions : Bool) :
    List DiffEntry :=
  compareResourceKeys oldList newList checkDescriptions (resourceKeys oldList newList)
termination_by (sizeOf oldList + sizeOf newList + 1, 2, 0)
decreasing_by
  exact Prod.Lex.right _ (Prod.Lex.left _ _ (by omega))

/-- `func compareSingleResource(old, new *Resource, checkDescriptions bool)
[]*DiffEntry` -/
def compareSingleResource (old new : Resource) (checkDescriptions : Bool) : List DiffEntry :=
  (diffString "Name" old.Name new.Name).toList ++
  compareResources old.Resources new.Resources checkDescriptions ++
  compareMethods old.Methods new.Methods checkDescriptions
termination_by (sizeOf old.Resources + sizeOf new.Resources + 1, 3, 0)
decreasing_by
  exact Prod.Lex.right _ (Prod.Lex.left _ _ (by omega))

end

/-- `func DiffDocs(old, new *Document, options DiffOptions) []*DiffEntry` -/
def DiffDocs (old new : Document) (options : DiffOptions) : List DiffEntry :=
  compareIdentifiers old new ++
  (if Has options VersioningOption then compareVersioning old new else []) ++
  (if Has options ServiceOption then compareServiceOptions old new else []) ++
  (if Has options SchemaOption then
    compareSchemas old new (Has options DescriptionOption) else []) ++
  (if Has options ResourceOption then
    compareResources old.Resources new.Resources (Has options DescriptionOption) else [])

/-- `func renderChangeType(t ChangeType) string` -/
def renderChangeType (t : ChangeType) : String :=
  if t = AddChange then "+"
  else if t = ModifyChange then "M"
  else if t = DeleteChange then "-"
  else "?"

/-- `func renderElementKind(e ElementKind) string` -/
def renderElementKind (e : ElementKind) : String :=
  if e = SchemaKind then "<Schema> "
  else if e = MethodKind then "<Method> "
  else if e = ResourceKind then "<Resource> "
  else if e = StringFieldKind then "."
  else if e = BoolFieldKind then "."
  else "???"

/-- `func canRenderDelta(e ElementKind) bool` -/
def canRenderDelta (e : ElementKind) : Bool :=
  e = StringFieldKind || e = BoolFieldKind

/-- `strings.Repeat(" ", level*2)` -/
def indentSpaces (level : Nat) : String :=
  String.mk (List.replicate (level * 2) ' ')

/-- The body of the `renderDiffInternal` loop for one entry: the entry's own
line followed by its recursively rendered children one level deeper. -/
def renderEntry (level : Nat) : DiffEntry → String
  | .mk c k i o n ch =>
      indentSpaces level ++
      renderChangeType c ++ " " ++ renderElementKind k ++ i ++
      (if c = ModifyChange ∧ canRenderDelta k then
        " [ \"" ++ o ++ "\" ==> \"" ++ n ++ "\" ]" else "") ++
      (if c = AddChange ∧ n ≠ "" then " [ \"" ++ n ++ "\" ]" else "") ++
      "\n" ++
      String.join (ch.attach.map fun e => renderEntry (level + 1) e.1)
termination_by e => sizeOf e
decreasing_by
  have := List.sizeOf_lt_sizeOf_of_mem e.2
  simp only [DiffEntry.mk.sizeOf_spec]
  omega

/-- `func renderDiffInternal(entries []*DiffEntry, level int) string` (a nil
slice and an empty slice both render to the empty string, so both map to
`[]`). -/
def renderDiffInternal (entries : List DiffEntry) (level : Nat) : String :=
  String.join (entries.map (renderEntry level))

/-- `func renderDiff(entries []*DiffEntry) string` -/
def renderDiff (entries : List DiffEntry) : String :=
  renderDiffInternal entries 0

/-- Does `p` hold of every node in the subtree rooted at this entry? -/
def subtreeAll (p : DiffEntry → Bool) : DiffEntry → Bool
  | .mk c k i o n ch =>
      p (.mk c k i o n ch) && (ch.attach.all fun e => subtreeAll p e.1)
termination_by e => sizeOf e
decreasing_by
  have := List.sizeOf_lt_sizeOf_of_mem e.2
  simp only [DiffEntry.mk.sizeOf_spec]
  omega

/-! ### Predicates and concrete inputs used by the statements below -/

def isCompositeKind (k : ElementKind) : Bool :=
  k == SchemaKind || k == ResourceKind || k == MethodKind

def isScalarKind (k : ElementKind) : Bool :=
  k == StringFieldKind || k == BoolFieldKind

/-- The shape invariant of spec §3: a composite entry carries no old/new
text values; a scalar-field entry carries no children. -/
def shapeOK (e : DiffEntry) : Bool :=
  (!isCompositeKind e.ElementKind || (e.OldValue == "" && e.NewValue == "")) &&
  (!isScalarKind e.ElementKind || e.Children.isEmpty)

/-- The value suffix spec §4.5 prescribes for one rendered line: old and new
bracketed and arrow-separated for scalar Modify entries, just the new value
bracketed for scalar Add entries with a non-empty new value, nothing for
everything else (in particular for composite entries). -/
def claimSuffix (e : DiffEntry) : String :=
  if isScalarKind e.ElementKind && e.ChangeType == ModifyChange then
    " [ \"" ++ e.OldValue ++ "\" ==> \"" ++ e.NewValue ++ "\" ]"
  else if isScalarKind e.ElementKind && e.ChangeType == AddChange && e.NewValue != "" then
    " [ \"" ++ e.NewValue ++ "\" ]"
  else ""

/-- A document whose every field is zero-valued. -/
def emptyDoc : Document :=
  { ID := "", Name := "", Revision := "", Title := "", RootURL := "", ServicePath := "",
    BasePath := "", DocumentationLink := "", Schemas := [], Resources := [] }

/-- Old side of a pair that differs only in one schema description. -/
def c4OldSchema : Schema := { zeroSchema with ID := "S", Name := "S", Description := "old words" }

/-- New side of a pair that differs only in one schema description. -/
def c4NewSchema : Schema := { c4OldSchema with Description := "new words" }

def c4Old : Document := { emptyDoc with ID := "api:v1", Schemas := [("S", c4OldSchema)] }

def c4New : Document := { c4Old with Schemas := [("S", c4NewSchema)] }

/-- A method, and a copy differing only in its path. -/
def c5OldMethod : Method :=
  { Name := "get", ID := "api.r.get", Path := "r/get", HTTPMethod := "GET",
    Description := "", SupportsMediaDownload := false }

def c5NewMethod : Method := { c5OldMethod with Path := "r/get/changed" }

def c5Old : Document :=
  { emptyDoc with ID := "api:v1", Resources := [.mk "r" [] [c5OldMethod]] }

def c5New : Document :=
  { c5Old with Resources := [.mk "r" [] [c5NewMethod]] }

def w8SchemaA : Schema := { zeroSchema with ID := "A", Name := "A" }

def w8SchemaB : Schema := { zeroSchema with ID := "B", Name := "B" }

/-- A document holding two schemas, for the determinism witness. -/
def w8Doc : Document :=
  { emptyDoc with ID := "api:v1", Schemas := [("a", w8SchemaA), ("b", w8SchemaB)] }

/-! ### Helper lemmas -/

theorem attach_all_eq {α : Type} (l : List α) (g : α → Bool) :
    (l.attach.all fun x => g x.1) = l.all g := by
  rw [Bool.eq_iff_iff, List.all_eq_true, List.all_eq_true]
  constructor
  · intro h a ha
    exact h ⟨a, ha⟩ (List.mem_attach l ⟨a, ha⟩)
  · intro h x _
    exact h x.1 x.2

theorem subtreeAll_mk (p : DiffEntry → Bool) (c : ChangeType) (k : ElementKind)
    (i o n : String) (ch : List DiffEntry) :
    subtreeAll p (.mk c k i o n ch) =
      (p (.mk c k i o n ch) && ch.all (subtreeAll p)) := by
  rw [subtreeAll, attach_all_eq]

theorem amendEntry_mk (t : ChangeType) (c : ChangeType) (k : ElementKind)
    (i o n : String) (ch : List DiffEntry) :
    amendEntry t (.mk c k i o n ch) = .mk t k i o n (ch.map (amendEntry t)) := by
  rw [amendEntry, List.attach_map_val]

theorem renderEntry_mk (level : Nat) (c : ChangeType) (k : ElementKind)
    (i o n : String) (ch : List DiffEntry) :
    renderEntry level (.mk c k i o n ch) =
      indentSpaces level ++
      renderChangeType c ++ " " ++ renderElementKind k ++ i ++
      (if c = ModifyChange ∧ canRenderDelta k then
        " [ \"" ++ o ++ "\" ==> \"" ++ n ++ "\" ]" else "") ++
      (if c = AddChange ∧ n ≠ "" then " [ \"" ++ n ++ "\" ]" else "") ++
      "\n" ++
      String.join (ch.map (renderEntry (level + 1))) := by
  rw [renderEntry, List.attach_map_val]

/-- Strong induction over the nested inductive `DiffEntry`: to prove `P` of
an entry one may assume it of every child. -/
theorem DiffEntry.ind_on (P : DiffEntry → Prop)
    (h : ∀ c k i o n ch, (∀ e ∈ ch, P e) → P (.mk c k i o n ch)) :
    ∀ e, P e := by
  have H : ∀ m e, sizeOf e ≤ m → P e := by
    intro m
    induction m with
    | zero =>
        intro e he
        cases e with
        | mk c k i o n ch => simp at he
    | succ m ih =>
        intro e he
        cases e with
        | mk c k i o n ch =>
            apply h
            intro x hx
            apply ih
            have h1 := List.sizeOf_lt_sizeOf_of_mem hx
            simp at he
            omega
  intro e
  exact H (sizeOf e) e le_rfl

/-- Strong induction over pairs of resource lists by total size, matching
the recursion pattern of `compareResources`. -/
theorem resPair_ind (P : List Resource → List Resource → Prop)
    (h : ∀ ol nl,
      (∀ ol2 nl2, sizeOf ol2 + sizeOf nl2 < sizeOf ol + sizeOf nl → P ol2 nl2) →
      P ol nl) :
    ∀ ol nl, P ol nl := by
  have H : ∀ m ol nl, sizeOf ol + sizeOf nl ≤ m → P ol nl := by
    intro m
    induction m with
    | zero =>
        intro ol nl hle
        cases ol <;> simp at hle
    | succ m ih =>
        intro ol nl hle
        apply h
        intro ol2 nl2 hlt
        apply ih
        omega
  intro ol nl
  exact H (sizeOf ol + sizeOf nl) ol nl le_rfl

theorem one_le_sizeOf_resList (l : List Resource) : 1 ≤ sizeOf l := by
  cases l <;> simp <;> omega

/-! ### The executable string order agrees with the library's lexicographic
order on strings -/

theorem listCharLe_iff :
    ∀ l1 l2 : List Char, listCharLe l1 l2 = true ↔ ¬ List.Lex (· < ·) l2 l1 := by
  intro l1
  induction l1 with
  | nil =>
      intro l2
      simp [listCharLe]
  | cons a as ih =>
      intro l2
      cases l2 with
      | nil =>
          simp [listCharLe]
          exact List.Lex.nil
      | cons b bs =>
          by_cases hab : a < b
          · simp [listCharLe, hab]
            intro h
            cases h with
            | cons h => exact absurd hab (lt_irrefl _)
            | rel h => exact absurd hab (asymm h)
          · by_cases hba : b < a
            · simp [listCharLe, hab, hba]
              exact List.Lex.rel hba
            · have heq : a = b := le_antisymm (le_of_not_lt hba) (le_of_not_lt hab)
              subst heq
              simp [listCharLe, hab, hba]
              rw [ih bs]
              constructor
              · intro h hl
                exact h (List.Lex.cons_iff.mp hl)
              · intro h hl
                exact h (List.Lex.cons hl)

theorem strLe_iff (a b : String) : strLe a b = true ↔ a ≤ b := by
  rw [strLe, String.le_iff_toList_le, ← not_lt]
  have h : (b.toList < a.toList) ↔ List.Lex (· < ·) b.toList a.toList := Iff.rfl
  rw [h]
  exact listCharLe_iff a.data b.data

instance strLeTotal : IsTotal String (fun a b => strLe a b = true) :=
  ⟨fun a b => by
    rcases le_total a b with h | h
    · exact Or.inl ((strLe_iff _ _).mpr h)
    · exact Or.inr ((strLe_iff _ _).mpr h)⟩

instance strLeTrans : IsTrans String (fun a b => strLe a b = true) :=
  ⟨fun _ _ _ hab hbc =>
    (strLe_iff _ _).mpr (le_trans ((strLe_iff _ _).mp hab) ((strLe_iff _ _).mp hbc))⟩

instance strLeAntisymm : IsAntisymm String (fun a b => strLe a b = true) :=
  ⟨fun _ _ hab hba => le_antisymm ((strLe_iff _ _).mp hab) ((strLe_iff _ _).mp hba)⟩

theorem sortStrings_sorted (l : List String) :
    List.Sorted (fun a b => strLe a b = true) (sortStrings l) :=
  List.sorted_insertionSort _ l

theorem sortStrings_sorted_le (l : List String) :
    List.Sorted (· ≤ ·) (sortStrings l) :=
  (sortStrings_sorted l).imp fun h => (strLe_iff _ _).mp h

theorem sortStrings_perm (l : List String) : (sortStrings l).Perm l :=
  List.perm_insertionSort _ l

theorem sortStrings_eq_of_perm {l1 l2 : List String} (h : l1.Perm l2) :
    sortStrings l1 = sortStrings l2 :=
  List.eq_of_perm_of_sorted
    ((sortStrings_perm l1).trans (h.trans (sortStrings_perm l2).symm))
    (sortStrings_sorted l1) (sortStrings_sorted l2)

/-! ### Case analysis of the per-key resource loop body -/

theorem resourceEntryForKey_none_none {ol nl : List Resource} {cd : Bool} {k : String}
    (ho : resLookup ol k = none) (hn : resLookup nl k = none) :
    resourceEntryForKey ol nl cd k = [] := by
  rw [resourceEntryForKey]
  split <;> simp_all
  all_goals (subst_vars; rfl)

theorem resourceEntryForKey_add {ol nl : List Resource} {cd : Bool} {k : String} {n : Resource}
    (ho : resLookup ol k = none) (hn : resLookup nl k = some n) :
    resourceEntryForKey ol nl cd k =
      (if (compareSingleResource zeroResource n cd).isEmpty then []
       else [.mk AddChange ResourceKind ("Resources." ++ k) "" ""
              (amendChangeType (compareSingleResource zeroResource n cd) AddChange)]) := by
  rw [resourceEntryForKey]
  split <;> simp_all
  all_goals (subst_vars; rfl)

theorem resourceEntryForKey_delete {ol nl : List Resource} {cd : Bool} {k : String}
    {o : Resource} (ho : resLookup ol k = some o) (hn : resLookup nl k = none) :
    resourceEntryForKey ol nl cd k =
      [.mk DeleteChange ResourceKind ("Resources." ++ k) "" "" []] := by
  rw [resourceEntryForKey]
  split <;> simp_all
  all_goals (subst_vars; rfl)

theorem resourceEntryForKey_both {ol nl : List Resource} {cd : Bool} {k : String}
    {o n : Resource} (ho : resLookup ol k = some o) (hn : resLookup nl k = some n) :
    resourceEntryForKey ol nl cd k =
      (if (compareSingleResource o n cd).isEmpty then []
       else [.mk ModifyChange ResourceKind ("Resources." ++ k) "" ""
              (compareSingleResource o n cd)]) := by
  rw [resourceEntryForKey]
  split <;> simp_all
  all_goals (subst_vars; rfl)

/-! ### Self-comparison lemmas -/

theorem stringFieldDiff_self (cd : Bool) (fn v : String) : stringFieldDiff cd fn v v = [] := by
  simp [stringFieldDiff]

theorem compareSingleSchema_self (s : Schema) (cd : Bool) : compareSingleSchema s s cd = [] := by
  simp [compareSingleSchema, stringFieldDiff]

theorem schemaEntryForKey_self (d : Document) (cd : Bool) (k : String) :
    schemaEntryForKey d d cd k = [] := by
  unfold schemaEntryForKey
  cases h : lookupSchema d.Schemas k <;> simp [compareSingleSchema_self]

theorem compareSchemas_self (d : Document) (cd : Bool) : compareSchemas d d cd = [] := by
  simp [compareSchemas, schemaEntryForKey_self]

theorem compareResourceKeys_eq_nil (ol nl : List Resource) (cd : Bool) (keys : List String)
    (h : ∀ k ∈ keys, resourceEntryForKey ol nl cd k = []) :
    compareResourceKeys ol nl cd keys = [] := by
  induction keys with
  | nil => rw [compareResourceKeys]
  | cons k rest ih =>
      rw [compareResourceKeys, h k (List.mem_cons_self _ _),
        ih (fun x hx => h x (List.mem_cons_of_mem _ hx))]
      rfl

theorem compareResources_self (cd : Bool) : ∀ l, compareResources l l cd = [] := by
  have main : ∀ ol nl, ol = nl → compareResources ol nl cd = [] := by
    apply resPair_ind (P := fun ol nl => ol = nl → compareResources ol nl cd = [])
    intro ol nl ih heq
    subst heq
    rw [compareResources]
    apply compareResourceKeys_eq_nil
    intro k _
    cases h : resLookup ol k with
    | none => exact resourceEntryForKey_none_none h h
    | some r =>
        rw [resourceEntryForKey_both h h]
        have hr : compareSingleResource r r cd = [] := by
          rw [compareSingleResource]
          have h1 : diffString "Name" r.Name r.Name = none := by simp [diffString]
          have hm := List.sizeOf_lt_sizeOf_of_mem (resLookup_mem h)
          have h2 : compareResources r.Resources r.Resources cd = [] := by
            apply ih _ _ _ rfl
            have := sizeOf_resources_lt r
            omega
          rw [h1, h2]
          rfl
        rw [hr]
        rfl
  intro l
  exact main l l rfl

/-! ### Claim C2 -/

/-- C2: for every document `A` and every option mask `M`, comparing `A`
against itself yields an empty sequence: `DiffDocs(A, A, M) = []`. -/
theorem C2_diff_self_empty (A : Document) (M : DiffOptions) : DiffDocs A A M = [] := by
  simp [DiffDocs, compareIdentifiers, compareVersioning, compareServiceOptions,
    stringFieldDiff_self, compareSchemas_self, compareResources_self]

/-! ### Claim C6 -/

/-- C6: the scalar field comparators return no entry when the two values are
equal, and otherwise exactly one entry of the matching scalar kind with
ChangeType Modify, the field identifier as element id, no children, and both
values rendered as text — booleans as `true`/`false`. -/
theorem C6_field_comparator (id oldS newS : String) (oldB newB : Bool) :
    (oldS = newS → diffString id oldS newS = none) ∧
    (oldS ≠ newS →
      diffString id oldS newS = some (.mk ModifyChange StringFieldKind id oldS newS [])) ∧
    (oldB = newB → diffBool id oldB newB = none) ∧
    (oldB ≠ newB →
      diffBool id oldB newB = some (.mk ModifyChange BoolFieldKind id
        (if oldB then "true" else "false") (if newB then "true" else "false") [])) := by
  refine ⟨?_, ?_, ?_, ?_⟩ <;> intro h <;>
    simp [diffString, diffBool, formatBool, h]

/-! ### Claim C10 -/

/-- C10: the renderer is total over arbitrary entry contents: an unknown
change type renders as `?`, an unknown element kind as `???`, and an empty
entry sequence (Go: nil or empty slice) renders to the empty string. -/
theorem C10_renderer_total (t : ChangeType) (k : ElementKind) (level : Nat)
    (ht : t ≠ AddChange ∧ t ≠ ModifyChange ∧ t ≠ DeleteChange)
    (hk : k ≠ SchemaKind ∧ k ≠ MethodKind ∧ k ≠ ResourceKind ∧
          k ≠ StringFieldKind ∧ k ≠ BoolFieldKind) :
    renderChangeType t = "?" ∧ renderElementKind k = "???" ∧
    renderDiffInternal [] level = "" ∧ renderDiff [] = "" := by
  obtain ⟨h1, h2, h3⟩ := ht
  obtain ⟨g1, g2, g3, g4, g5⟩ := hk
  refine ⟨?_, ?_, rfl, rfl⟩ <;> simp [renderChangeType, renderElementKind, *]

theorem C10_renderer_total_witness :
    renderChangeType "SOMETHING_ELSE" = "?" ∧ renderElementKind "UNKNOWN_KIND" = "???" ∧
    renderDiffInternal [] 3 = "" ∧ renderDiff [] = "" :=
  C10_renderer_total "SOMETHING_ELSE" "UNKNOWN_KIND" 3
    (by refine ⟨?_, ?_, ?_⟩ <;> decide)
    (by refine ⟨?_, ?_, ?_, ?_, ?_⟩ <;> decide)

/-! ### Claim C4: the include-descriptions flag is dead in the code -/

/-- C4 (evaluation at the failing input): the two documents differ exactly in
one schema's description, the mask has both the schema category and the
include-descriptions flag set, and yet the diff is empty — the source passes
a literal `false` for `checkDescriptions` to `getFieldDiffs`, so the
`Description` field is never compared and no Modify entry is produced. -/
theorem C4_description_flag_dead_eval :
    Has (Set SchemaOption DescriptionOption) DescriptionOption = true ∧
    c4OldSchema.Description ≠ c4NewSchema.Description ∧
    DiffDocs c4Old c4New (Set SchemaOption DescriptionOption) = [] := by
  refine ⟨rfl, by decide, rfl⟩

/-! ### Claim C5: methods are never compared by the code -/

/-- C5 (evaluation at the failing input): the two documents hold one resource
of the same name whose method lists differ in the `Path` field of a method,
every option is enabled, and yet the diff is empty — `compareMethods` is a
stub returning nil, so no Method-kind child entry is ever produced. -/
theorem C5_methods_stub_eval :
    c5OldMethod.Path ≠ c5NewMethod.Path ∧
    compareMethods [c5OldMethod] [c5NewMethod] true = [] ∧
    (compareSingleMethod c5OldMethod c5NewMethod true).isEmpty = false ∧
    DiffDocs c5Old c5New AllOptions = [] := by
  have hres : compareResources c5Old.Resources c5New.Resources
      (Has AllOptions DescriptionOption) = [] := by
    rw [compareResources]
    have hkeys : resourceKeys c5Old.Resources c5New.Resources = ["r"] := rfl
    rw [hkeys]
    rw [compareResourceKeys, compareResourceKeys]
    have ho : resLookup c5Old.Resources "r" = some (.mk "r" [] [c5OldMethod]) := rfl
    have hn : resLookup c5New.Resources "r" = some (.mk "r" [] [c5NewMethod]) := rfl
    rw [resourceEntryForKey_both ho hn]
    have hsingle : compareSingleResource (.mk "r" [] [c5OldMethod])
        (.mk "r" [] [c5NewMethod]) (Has AllOptions DescriptionOption) = [] := by
      rw [compareSingleResource]
      have hrr : compareResources (Resource.mk "r" [] [c5OldMethod]).Resources
          (Resource.mk "r" [] [c5NewMethod]).Resources (Has AllOptions DescriptionOption) = [] := by
        rw [compareResources]
        rw [show resourceKeys (Resource.mk "r" [] [c5OldMethod]).Resources
          (Resource.mk "r" [] [c5NewMethod]).Resources = [] from rfl]
        rw [compareResourceKeys]
      rw [hrr]
      rfl
    rw [hsingle]
    rfl
  refine ⟨by decide, rfl, rfl, ?_⟩
  have h1 : compareIdentifiers c5Old c5New = [] := rfl
  have h2 : compareVersioning c5Old c5New = [] := rfl
  have h3 : compareServiceOptions c5Old c5New = [] := rfl
  have h4 : compareSchemas c5Old c5New (Has AllOptions DescriptionOption) = [] := rfl
  unfold DiffDocs
  rw [h1, h2, h3, h4, hres]
  simp

/-! ### Claim C1 support -/

theorem schemaEntryForKey_none_none {old new : Document} {cd : Bool} {k : String}
    (ho : lookupSchema old.Schemas k = none) (hn : lookupSchema new.Schemas k = none) :
    schemaEntryForKey old new cd k = [] := by
  unfold schemaEntryForKey
  rw [ho, hn]

theorem schemaEntryForKey_add {old new : Document} {cd : Bool} {k : String} {s : Schema}
    (ho : lookupSchema old.Schemas k = none) (hn : lookupSchema new.Schemas k = some s) :
    schemaEntryForKey old new cd k =
      (if (compareSingleSchema zeroSchema s cd).isEmpty then []
       else [.mk AddChange SchemaKind ("Schemas." ++ k) "" ""
              ((compareSingleSchema zeroSchema s cd).map fun f =>
                .mk AddChange f.ElementKind f.ElementID f.OldValue f.NewValue f.Children)]) := by
  unfold schemaEntryForKey
  rw [ho, hn]

theorem schemaEntryForKey_delete {old new : Document} {cd : Bool} {k : String} {s : Schema}
    (ho : lookupSchema old.Schemas k = some s) (hn : lookupSchema new.Schemas k = none) :
    schemaEntryForKey old new cd k =
      [.mk DeleteChange SchemaKind ("Schemas." ++ k) "" "" []] := by
  unfold schemaEntryForKey
  rw [ho, hn]

theorem schemaEntryForKey_both {old new : Document} {cd : Bool} {k : String} {so sn : Schema}
    (ho : lookupSchema old.Schemas k = some so) (hn : lookupSchema new.Schemas k = some sn) :
    schemaEntryForKey old new cd k =
      (if (compareSingleSchema so sn cd).isEmpty then []
       else [.mk ModifyChange SchemaKind ("Schemas." ++ k) "" ""
              (compareSingleSchema so sn cd)]) := by
  unfold schemaEntryForKey
  rw [ho, hn]

theorem mem_stringFieldDiff {e : DiffEntry} {cd : Bool} {fn o n : String}
    (h : e ∈ stringFieldDiff cd fn o n) :
    e = .mk ModifyChange StringFieldKind fn o n [] := by
  unfold stringFieldDiff at h
  split at h
  · split at h
    · simpa using h
    · simp at h
  · simp at h

theorem mem_boolFieldDiff {e : DiffEntry} {fn : String} {o n : Bool}
    (h : e ∈ boolFieldDiff fn o n) :
    e = .mk ModifyChange BoolFieldKind fn (formatBool o) (formatBool n) [] := by
  unfold boolFieldDiff at h
  split at h
  · simpa using h
  · simp at h

/-- Every entry a schema field comparison emits is a scalar string-field
entry without children. -/
theorem mem_compareSingleSchema {e : DiffEntry} {a b : Schema} {cd : Bool}
    (h : e ∈ compareSingleSchema a b cd) :
    e.ElementKind = StringFieldKind ∧ e.Children = [] := by
  unfold compareSingleSchema at h
  simp only [List.mem_append] at h
  rcases h with ((((((h | h) | h) | h) | h) | h) | h) | h <;>
    (rw [mem_stringFieldDiff h]; exact ⟨rfl, rfl⟩)

theorem subtreeAll_changeType_amendEntry (t : ChangeType) :
    ∀ e, subtreeAll (fun x => x.ChangeType == t) (amendEntry t e) = true := by
  apply DiffEntry.ind_on
    (P := fun e => subtreeAll (fun x => x.ChangeType == t) (amendEntry t e) = true)
  intro c k i o n ch ih
  rw [amendEntry_mk, subtreeAll_mk]
  rw [Bool.and_eq_true]
  refine ⟨by simp [DiffEntry.ChangeType], ?_⟩
  rw [List.all_eq_true]
  intro x hx
  rcases List.mem_map.mp hx with ⟨y, hy, rfl⟩
  exact ih y hy

/-- C1: in both keyed-collection reconcilers (schemas and resources), a key
present only in the new collection yields an entry whose whole subtree
carries ChangeType Add — and no entry at all when comparing the new element
against the zero-valued element yields no diffs — while a key present only
in the old collection yields exactly one Delete entry with zero children. -/
theorem C1_add_delete_classification (old new : Document) (ol nl : List Resource)
    (cd : Bool) (k : String) :
    (lookupSchema old.Schemas k = none →
      ((schemaEntryForKey old new cd k).all
        (subtreeAll fun e => e.ChangeType == AddChange)) = true) ∧
    (∀ s, lookupSchema old.Schemas k = none → lookupSchema new.Schemas k = some s →
      compareSingleSchema zeroSchema s cd = [] →
      schemaEntryForKey old new cd k = []) ∧
    (∀ s, lookupSchema old.Schemas k = some s → lookupSchema new.Schemas k = none →
      schemaEntryForKey old new cd k =
        [.mk DeleteChange SchemaKind ("Schemas." ++ k) "" "" []]) ∧
    (resLookup ol k = none →
      ((resourceEntryForKey ol nl cd k).all
        (subtreeAll fun e => e.ChangeType == AddChange)) = true) ∧
    (∀ r, resLookup ol k = none → resLookup nl k = some r →
      compareSingleResource zeroResource r cd = [] →
      resourceEntryForKey ol nl cd k = []) ∧
    (∀ r, resLookup ol k = some r → resLookup nl k = none →
      resourceEntryForKey ol nl cd k =
        [.mk DeleteChange ResourceKind ("Resources." ++ k) "" "" []]) := by
  refine ⟨?_, ?_, ?_, ?_, ?_, ?_⟩
  · intro ho
    cases hn : lookupSchema new.Schemas k with
    | none => rw [schemaEntryForKey_none_none ho hn]; rfl
    | some s =>
        rw [schemaEntryForKey_add ho hn]
        split
        · rfl
        · simp only [List.all_cons, List.all_nil, Bool.and_true]
          rw [subtreeAll_mk, Bool.and_eq_true]
          constructor
          · simp [DiffEntry.ChangeType]
          · rw [List.all_eq_true]
            intro x hx
            rcases List.mem_map.mp hx with ⟨f, hf, rfl⟩
            obtain ⟨_, hc⟩ := mem_compareSingleSchema hf
            rw [hc, subtreeAll_mk]
            simp [DiffEntry.ChangeType]
  · intro s ho hn hz
    rw [schemaEntryForKey_add ho hn, hz]
    rfl
  · intro s ho hn
    exact schemaEntryForKey_delete ho hn
  · intro ho
    cases hn : resLookup nl k with
    | none => rw [resourceEntryForKey_none_none ho hn]; rfl
    | some r =>
        rw [resourceEntryForKey_add ho hn]
        split
        · rfl
        · simp only [List.all_cons, List.all_nil, Bool.and_true]
          rw [subtreeAll_mk, Bool.and_eq_true]
          constructor
          · simp [DiffEntry.ChangeType]
          · rw [List.all_eq_true]
            intro x hx
            simp only [amendChangeType] at hx
            rcases List.mem_map.mp hx with ⟨y, _, rfl⟩
            exact subtreeAll_changeType_amendEntry AddChange y
  · intro r ho hn hz
    rw [resourceEntryForKey_add ho hn, hz]
    rfl
  · intro r ho hn
    exact resourceEntryForKey_delete ho hn

/-! ### Claim C9: shape invariant -/

theorem subtreeAll_scalar_shape {e : DiffEntry}
    (hk : e.ElementKind = StringFieldKind ∨ e.ElementKind = BoolFieldKind)
    (hc : e.Children = []) :
    subtreeAll shapeOK e = true := by
  cases e with
  | mk c k i o n ch =>
      simp only [DiffEntry.ElementKind] at hk
      simp only [DiffEntry.Children] at hc
      subst hc
      rw [subtreeAll_mk]
      rcases hk with rfl | rfl <;>
        simp [shapeOK, isCompositeKind, isScalarKind, SchemaKind, ResourceKind, MethodKind,
          StringFieldKind, BoolFieldKind, DiffEntry.ElementKind, DiffEntry.Children]

theorem stringFieldDiff_all_shape (cd : Bool) (fn o n : String) :
    (stringFieldDiff cd fn o n).all (subtreeAll shapeOK) = true := by
  rw [List.all_eq_true]
  intro e he
  rw [mem_stringFieldDiff he]
  exact subtreeAll_scalar_shape (Or.inl rfl) rfl

theorem boolFieldDiff_all_shape (fn : String) (o n : Bool) :
    (boolFieldDiff fn o n).all (subtreeAll shapeOK) = true := by
  rw [List.all_eq_true]
  intro e he
  rw [mem_boolFieldDiff he]
  exact subtreeAll_scalar_shape (Or.inr rfl) rfl

theorem compareSingleSchema_all_shape (a b : Schema) (cd : Bool) :
    (compareSingleSchema a b cd).all (subtreeAll shapeOK) = true := by
  rw [List.all_eq_true]
  intro e he
  obtain ⟨hk, hc⟩ := mem_compareSingleSchema he
  exact subtreeAll_scalar_shape (Or.inl hk) hc

theorem isEmpty_map {α β : Type} (f : α → β) (l : List α) :
    (l.map f).isEmpty = l.isEmpty := by
  cases l <;> rfl

theorem subtreeAll_shapeOK_amendEntry (t : ChangeType) :
    ∀ e, subtreeAll shapeOK (amendEntry t e) = subtreeAll shapeOK e := by
  apply DiffEntry.ind_on
    (P := fun e => subtreeAll shapeOK (amendEntry t e) = subtreeAll shapeOK e)
  intro c k i o n ch ih
  rw [amendEntry_mk, subtreeAll_mk, subtreeAll_mk]
  have h1 : shapeOK (.mk t k i o n (ch.map (amendEntry t))) = shapeOK (.mk c k i o n ch) := by
    simp only [shapeOK, DiffEntry.ElementKind, DiffEntry.OldValue, DiffEntry.NewValue,
      DiffEntry.Children, isEmpty_map]
  rw [h1, List.all_map]
  congr 1
  rw [Bool.eq_iff_iff, List.all_eq_true, List.all_eq_true]
  constructor
  · intro h x hx
    rw [← ih x hx]
    exact h x hx
  · intro h x hx
    rw [Function.comp_apply, ih x hx]
    exact h x hx

/-- The composite entries built by the reconcilers satisfy the shape
invariant whenever their children do. -/
theorem subtreeAll_composite_shape (c : ChangeType) (k0 : ElementKind) (i : String)
    (ch : List DiffEntry)
    (hk : k0 = SchemaKind ∨ k0 = ResourceKind)
    (hch : ch.all (subtreeAll shapeOK) = true) :
    subtreeAll shapeOK (.mk c k0 i "" "" ch) = true := by
  rw [subtreeAll_mk, Bool.and_eq_true]
  refine ⟨?_, hch⟩
  rcases hk with rfl | rfl <;>
    simp [shapeOK, isCompositeKind, isScalarKind, SchemaKind, ResourceKind, MethodKind,
      StringFieldKind, BoolFieldKind, DiffEntry.ElementKind, DiffEntry.OldValue,
      DiffEntry.NewValue, DiffEntry.Children]

theorem schemaEntryForKey_all_shape (old new : Document) (cd : Bool) (k : String) :
    (schemaEntryForKey old new cd k).all (subtreeAll shapeOK) = true := by
  cases ho : lookupSchema old.Schemas k with
  | none =>
      cases hn : lookupSchema new.Schemas k with
      | none => rw [schemaEntryForKey_none_none ho hn]; rfl
      | some s =>
          rw [schemaEntryForKey_add ho hn]
          split
          · rfl
          · simp only [List.all_cons, List.all_nil, Bool.and_true]
            apply subtreeAll_composite_shape _ _ _ _ (Or.inl rfl)
            rw [List.all_map, List.all_eq_true]
            intro f hf
            obtain ⟨hk2, hc2⟩ := mem_compareSingleSchema hf
            exact subtreeAll_scalar_shape (Or.inl hk2) hc2
  | some so =>
      cases hn : lookupSchema new.Schemas k with
      | none =>
          rw [schemaEntryForKey_delete ho hn]
          simp only [List.all_cons, List.all_nil, Bool.and_true]
          exact subtreeAll_composite_shape _ _ _ _ (Or.inl rfl) rfl
      | some sn =>
          rw [schemaEntryForKey_both ho hn]
          split
          · rfl
          · simp only [List.all_cons, List.all_nil, Bool.and_true]
            exact subtreeAll_composite_shape _ _ _ _ (Or.inl rfl)
              (compareSingleSchema_all_shape so sn cd)

theorem compareSchemas_all_shape (old new : Document) (cd : Bool) :
    (compareSchemas old new cd).all (subtreeAll shapeOK) = true := by
  rw [compareSchemas, List.all_eq_true]
  intro e he
  rcases List.mem_flatten.mp he with ⟨l, hl, hel⟩
  rcases List.mem_map.mp hl with ⟨k, _, rfl⟩
  have := schemaEntryForKey_all_shape old new cd k
  rw [List.all_eq_true] at this
  exact this e hel

theorem compareResourceKeys_all (p : DiffEntry → Bool) (ol nl : List Resource) (cd : Bool)
    (keys : List String)
    (h : ∀ k ∈ keys, (resourceEntryForKey ol nl cd k).all p = true) :
    (compareResourceKeys ol nl cd keys).all p = true := by
  induction keys with
  | nil => rw [compareResourceKeys]; rfl
  | cons k rest ih =>
      rw [compareResourceKeys, List.all_append, Bool.and_eq_true]
      exact ⟨h k (List.mem_cons_self _ _), ih fun x hx => h x (List.mem_cons_of_mem _ hx)⟩

theorem compareResources_all_shape :
    ∀ ol nl : List Resource, ∀ cd : Bool,
      (compareResources ol nl cd).all (subtreeAll shapeOK) = true := by
  apply resPair_ind
    (P := fun ol nl => ∀ cd, (compareResources ol nl cd).all (subtreeAll shapeOK) = true)
  intro ol nl ih cd
  have hcsr : ∀ o n : Resource,
      sizeOf o.Resources + sizeOf n.Resources < sizeOf ol + sizeOf nl →
      (compareSingleResource o n cd).all (subtreeAll shapeOK) = true := by
    intro o n hsz
    rw [compareSingleResource, List.all_append, List.all_append]
    simp only [Bool.and_eq_true]
    refine ⟨⟨?_, ?_⟩, ?_⟩
    · rw [List.all_eq_true]
      intro e he
      unfold diffString at he
      split at he
      · simp only [Option.toList_some, List.mem_singleton] at he
        rw [he]
        exact subtreeAll_scalar_shape (Or.inl rfl) rfl
      · simp at he
    · exact ih o.Resources n.Resources hsz cd
    · rfl
  rw [compareResources]
  apply compareResourceKeys_all
  intro k _
  cases ho : resLookup ol k with
  | none =>
      cases hn : resLookup nl k with
      | none => rw [resourceEntryForKey_none_none ho hn]; rfl
      | some n =>
          rw [resourceEntryForKey_add ho hn]
          split
          · rfl
          · simp only [List.all_cons, List.all_nil, Bool.and_true]
            apply subtreeAll_composite_shape _ _ _ _ (Or.inr rfl)
            simp only [amendChangeType, List.all_map, List.all_eq_true]
            intro f hf
            rw [Function.comp_apply, subtreeAll_shapeOK_amendEntry]
            have hsz : sizeOf (zeroResource.Resources) + sizeOf n.Resources <
                sizeOf ol + sizeOf nl := by
              have hm := List.sizeOf_lt_sizeOf_of_mem (resLookup_mem hn)
              have h2 := sizeOf_resources_lt n
              have h3 := one_le_sizeOf_resList ol
              have h0 : sizeOf (zeroResource.Resources) = 1 := rfl
              omega
            have := hcsr zeroResource n hsz
            rw [List.all_eq_true] at this
            exact this f hf
  | some o =>
      cases hn : resLookup nl k with
      | none =>
          rw [resourceEntryForKey_delete ho hn]
          simp only [List.all_cons, List.all_nil, Bool.and_true]
          exact subtreeAll_composite_shape _ _ _ _ (Or.inr rfl) rfl
      | some n =>
          rw [resourceEntryForKey_both ho hn]
          split
          · rfl
          · simp only [List.all_cons, List.all_nil, Bool.and_true]
            apply subtreeAll_composite_shape _ _ _ _ (Or.inr rfl)
            apply hcsr
            have hmo := List.sizeOf_lt_sizeOf_of_mem (resLookup_mem ho)
            have hmn := List.sizeOf_lt_sizeOf_of_mem (resLookup_mem hn)
            have h2 := sizeOf_resources_lt o
            have h3 := sizeOf_resources_lt n
            omega

/-- C9: every entry the engine emits satisfies the shape invariant on its
whole subtree: composite entries (Schema, Resource, Method kinds) carry empty
old/new text values, and scalar-field entries carry no children. -/
theorem C9_shape_invariant (old new : Document) (M : DiffOptions) :
    (DiffDocs old new M).all (subtreeAll shapeOK) = true := by
  have hfield : ∀ cd fn o n, (stringFieldDiff cd fn o n).all (subtreeAll shapeOK) = true :=
    stringFieldDiff_all_shape
  rw [DiffDocs]
  simp only [List.all_append, Bool.and_eq_true]
  refine ⟨⟨⟨⟨?_, ?_⟩, ?_⟩, ?_⟩, ?_⟩
  · rw [compareIdentifiers, List.all_append, Bool.and_eq_true]
    exact ⟨hfield _ _ _ _, hfield _ _ _ _⟩
  · split
    · rw [compareVersioning]
      exact hfield _ _ _ _
    · rfl
  · split
    · rw [compareServiceOptions]
      simp only [List.all_append, Bool.and_eq_true]
      exact ⟨⟨⟨⟨hfield _ _ _ _, hfield _ _ _ _⟩, hfield _ _ _ _⟩, hfield _ _ _ _⟩,
        hfield _ _ _ _⟩
    · rfl
  · split
    · exact compareSchemas_all_shape old new _
    · rfl
  · split
    · exact compareResources_all_shape old.Resources new.Resources _
    · rfl

/-! ### Claim C3: ordering -/

theorem list_le_append_left (s t1 t2 : List Char) (h : t1 ≤ t2) : s ++ t1 ≤ s ++ t2 := by
  rw [← not_lt] at h ⊢
  intro hlex
  apply h
  induction s with
  | nil => exact hlex
  | cons c cs ih =>
      apply ih
      have : List.Lex (· < ·) (c :: (cs ++ t2)) (c :: (cs ++ t1)) := hlex
      exact List.Lex.cons_iff.mp this

theorem str_append_le (p a b : String) (h : a ≤ b) : p ++ a ≤ p ++ b := by
  rw [String.le_iff_toList_le] at h ⊢
  have h1 : (p ++ a).toList = p.toList ++ a.toList := by
    simp [String.toList, String.data_append]
  have h2 : (p ++ b).toList = p.toList ++ b.toList := by
    simp [String.toList, String.data_append]
  rw [h1, h2]
  exact list_le_append_left _ _ _ h

/-- If every entry produced for key `k` carries element id `pre ++ k` and the
keys are sorted, the element ids of the concatenated output are sorted. -/
theorem sorted_ids_flatten (f : String → List DiffEntry) (pre : String)
    (hf : ∀ k, ∀ e ∈ f k, e.ElementID = pre ++ k) :
    ∀ keys : List String, List.Sorted (· ≤ ·) keys →
      List.Sorted (· ≤ ·) (((keys.map f).flatten).map DiffEntry.ElementID) := by
  intro keys
  induction keys with
  | nil =>
      intro _
      simp [List.Sorted]
  | cons k rest ih =>
      intro hs
      rw [List.map_cons, List.flatten_cons, List.map_append]
      refine List.pairwise_append.mpr ⟨?_, ih hs.of_cons, ?_⟩
      · refine List.pairwise_map.mpr (List.pairwise_of_forall_mem_list ?_)
        intro a ha b hb
        rw [hf k a ha, hf k b hb]
      · intro x hx y hy
        rcases List.mem_map.mp hx with ⟨e, he, rfl⟩
        rcases List.mem_map.mp hy with ⟨e2, he2, rfl⟩
        rcases List.mem_flatten.mp he2 with ⟨l, hl, hel⟩
        rcases List.mem_map.mp hl with ⟨k2, hk2, rfl⟩
        rw [hf k e he, hf k2 e2 hel]
        apply str_append_le
        exact List.rel_of_sorted_cons hs k2 hk2

theorem schemaEntryForKey_elementID (old new : Document) (cd : Bool) (k : String) :
    ∀ e ∈ schemaEntryForKey old new cd k, e.ElementID = "Schemas." ++ k := by
  intro e he
  cases ho : lookupSchema old.Schemas k with
  | none =>
      cases hn : lookupSchema new.Schemas k with
      | none => rw [schemaEntryForKey_none_none ho hn] at he; simp at he
      | some s =>
          rw [schemaEntryForKey_add ho hn] at he
          split at he
          · simp at he
          · simp only [List.mem_singleton] at he
            rw [he]
            rfl
  | some so =>
      cases hn : lookupSchema new.Schemas k with
      | none =>
          rw [schemaEntryForKey_delete ho hn] at he
          simp only [List.mem_singleton] at he
          rw [he]
          rfl
      | some sn =>
          rw [schemaEntryForKey_both ho hn] at he
          split at he
          · simp at he
          · simp only [List.mem_singleton] at he
            rw [he]
            rfl

theorem resourceEntryForKey_elementID (ol nl : List Resource) (cd : Bool) (k : String) :
    ∀ e ∈ resourceEntryForKey ol nl cd k, e.ElementID = "Resources." ++ k := by
  intro e he
  cases ho : resLookup ol k with
  | none =>
      cases hn : resLookup nl k with
      | none => rw [resourceEntryForKey_none_none ho hn] at he; simp at he
      | some n =>
          rw [resourceEntryForKey_add ho hn] at he
          split at he
          · simp at he
          · simp only [List.mem_singleton] at he
            rw [he]
            rfl
  | some o =>
      cases hn : resLookup nl k with
      | none =>
          rw [resourceEntryForKey_delete ho hn] at he
          simp only [List.mem_singleton] at he
          rw [he]
          rfl
      | some n =>
          rw [resourceEntryForKey_both ho hn] at he
          split at he
          · simp at he
          · simp only [List.mem_singleton] at he
            rw [he]
            rfl

theorem compareResourceKeys_eq_flatten (ol nl : List Resource) (cd : Bool)
    (keys : List String) :
    compareResourceKeys ol nl cd keys =
      ((keys.map (resourceEntryForKey ol nl cd)).flatten) := by
  induction keys with
  | nil => rw [compareResourceKeys]; rfl
  | cons k rest ih => rw [compareResourceKeys, ih]; rfl

/-- C3: top-level output is the concatenation of the categories in the fixed
order identifiers, versioning, service metadata, schemas, resources, each
present only when enabled; within the schema and resource reconcilers the
output is the concatenation, over the ascending-sorted union of old and new
keys, of the per-key entries, whose element ids are the key prefixed by the
collection name — so entries appear in ascending lexicographic key order
(the method reconciler is a stub returning nil, so its output is trivially
ordered). -/
theorem C3_fixed_order_and_sorted_keys (old new : Document) (M : DiffOptions)
    (ol nl : List Resource) (cd : Bool) :
    (DiffDocs old new M =
      compareIdentifiers old new ++
      (if Has M VersioningOption then compareVersioning old new else []) ++
      (if Has M ServiceOption then compareServiceOptions old new else []) ++
      (if Has M SchemaOption then compareSchemas old new (Has M DescriptionOption) else []) ++
      (if Has M ResourceOption then
        compareResources old.Resources new.Resources (Has M DescriptionOption) else [])) ∧
    compareSchemas old new cd =
      ((schemaKeys old new).map (schemaEntryForKey old new cd)).flatten ∧
    (schemaKeys old new).Perm
      ((old.Schemas.map Prod.fst ++ new.Schemas.map Prod.fst).dedup) ∧
    List.Sorted (· ≤ ·) (schemaKeys old new) ∧
    List.Sorted (· ≤ ·) ((compareSchemas old new cd).map DiffEntry.ElementID) ∧
    compareResources ol nl cd =
      ((resourceKeys ol nl).map (resourceEntryForKey ol nl cd)).flatten ∧
    (resourceKeys ol nl).Perm ((ol.map Resource.Name ++ nl.map Resource.Name).dedup) ∧
    List.Sorted (· ≤ ·) (resourceKeys ol nl) ∧
    List.Sorted (· ≤ ·) ((compareResources ol nl cd).map DiffEntry.ElementID) := by
  refine ⟨rfl, rfl, sortStrings_perm _, sortStrings_sorted_le _, ?_, ?_, sortStrings_perm _,
    sortStrings_sorted_le _, ?_⟩
  · rw [compareSchemas]
    exact sorted_ids_flatten _ _ (schemaEntryForKey_elementID old new cd) _
      (sortStrings_sorted_le _)
  · rw [compareResources]
    exact compareResourceKeys_eq_flatten ol nl cd _
  · rw [compareResources, compareResourceKeys_eq_flatten]
    exact sorted_ids_flatten _ _ (resourceEntryForKey_elementID ol nl cd) _
      (sortStrings_sorted_le _)

/-! ### Claim C7: renderer line grammar -/

theorem foldl_append_str (l : List String) :
    ∀ acc : String, l.foldl (· ++ ·) acc = acc ++ l.foldl (· ++ ·) "" := by
  induction l with
  | nil => intro acc; simp
  | cons s rest ih =>
      intro acc
      simp only [List.foldl_cons]
      rw [ih (acc ++ s), ih ("" ++ s)]
      simp [String.append_assoc]

theorem string_join_cons (s : String) (l : List String) :
    String.join (s :: l) = s ++ String.join l := by
  simp only [String.join, List.foldl_cons]
  rw [foldl_append_str l ("" ++ s)]
  simp

theorem renderDiffInternal_cons (e : DiffEntry) (rest : List DiffEntry) (level : Nat) :
    renderDiffInternal (e :: rest) level =
      renderEntry level e ++ renderDiffInternal rest level := by
  rw [renderDiffInternal, List.map_cons, string_join_cons]
  rfl

theorem isScalar_canRenderDelta (k : ElementKind) :
    canRenderDelta k = isScalarKind k := by
  simp only [canRenderDelta, isScalarKind]
  by_cases h1 : k = StringFieldKind <;> by_cases h2 : k = BoolFieldKind <;> simp [h1, h2]

/-- C7: one rendered line per entry — indent of two spaces per level, change
marker, kind marker, element id, then the value suffix of the claim (old and
new bracketed and arrow-separated for scalar Modify entries; the new value
bracketed for scalar Add entries with non-empty new value; nothing for
composite entries), a newline, and the children rendered depth-first one
level deeper. -/
theorem C7_render_line (level : Nat) (e : DiffEntry)
    (hkind : isScalarKind e.ElementKind = true ∨
      (isCompositeKind e.ElementKind = true ∧ e.NewValue = "")) :
    renderEntry level e =
      indentSpaces level ++ renderChangeType e.ChangeType ++ " " ++
      renderElementKind e.ElementKind ++ e.ElementID ++ claimSuffix e ++ "\n" ++
      renderDiffInternal e.Children (level + 1) ∧
    indentSpaces (level + 1) = indentSpaces level ++ "  " ∧
    (∀ rest : List DiffEntry, renderDiffInternal (e :: rest) level =
      renderEntry level e ++ renderDiffInternal rest level) := by
  refine ⟨?_, ?_, fun rest => renderDiffInternal_cons e rest level⟩
  · cases e with
    | mk c k i o n ch =>
        rw [renderEntry_mk]
        have hsuffix :
            (if c = ModifyChange ∧ canRenderDelta k then
              " [ \"" ++ o ++ "\" ==> \"" ++ n ++ "\" ]" else "") ++
            (if c = AddChange ∧ n ≠ "" then " [ \"" ++ n ++ "\" ]" else "") =
            claimSuffix (.mk c k i o n ch) := by
          rcases hkind with hsc | ⟨hco, hnv⟩
          · simp only [DiffEntry.ElementKind] at hsc
            by_cases hm : c = ModifyChange
            · subst hm
              simp [claimSuffix, isScalar_canRenderDelta, hsc, DiffEntry.ElementKind,
                DiffEntry.ChangeType, DiffEntry.OldValue, DiffEntry.NewValue,
                ModifyChange, AddChange]
            · by_cases ha : c = AddChange
              · subst ha
                by_cases hn : n = ""
                · subst hn
                  simp [claimSuffix, isScalar_canRenderDelta, hsc, DiffEntry.ElementKind,
                    DiffEntry.ChangeType, DiffEntry.NewValue, ModifyChange, AddChange]
                · simp [claimSuffix, isScalar_canRenderDelta, hsc, DiffEntry.ElementKind,
                    DiffEntry.ChangeType, DiffEntry.NewValue, hn, ModifyChange, AddChange]
              · simp [claimSuffix, isScalar_canRenderDelta, hsc, DiffEntry.ElementKind,
                  DiffEntry.ChangeType, hm, ha]
          · simp only [DiffEntry.ElementKind] at hco
            simp only [DiffEntry.NewValue] at hnv
            subst hnv
            have hnotsc : isScalarKind k = false := by
              simp only [isCompositeKind, Bool.or_eq_true, beq_iff_eq, or_assoc] at hco
              rcases hco with rfl | rfl | rfl <;> rfl
            have hcrd : canRenderDelta k = false := by
              rw [isScalar_canRenderDelta, hnotsc]
            simp [claimSuffix, hcrd, hnotsc, DiffEntry.ElementKind, DiffEntry.ChangeType,
              DiffEntry.NewValue]
        rw [← hsuffix]
        simp only [DiffEntry.ChangeType, DiffEntry.ElementKind, DiffEntry.ElementID,
          DiffEntry.Children, renderDiffInternal]
        simp [String.append_assoc]
  · rw [indentSpaces, indentSpaces]
    have h1 : (level + 1) * 2 = level * 2 + 2 := by ring
    rw [h1, List.replicate_add]
    rfl

theorem C7_render_line_witness :
    (renderEntry 1 (.mk ModifyChange StringFieldKind "Title" "a" "b" []) =
      indentSpaces 1 ++
      renderChangeType (DiffEntry.mk ModifyChange StringFieldKind "Title" "a" "b" []).ChangeType
      ++ " " ++
      renderElementKind (DiffEntry.mk ModifyChange StringFieldKind "Title" "a" "b" []).ElementKind
      ++ (DiffEntry.mk ModifyChange StringFieldKind "Title" "a" "b" []).ElementID
      ++ claimSuffix (.mk ModifyChange StringFieldKind "Title" "a" "b" []) ++ "\n"
      ++ renderDiffInternal (DiffEntry.mk ModifyChange StringFieldKind "Title" "a" "b" []).Children 2 ∧
    indentSpaces 2 = indentSpaces 1 ++ "  " ∧
    (∀ rest : List DiffEntry,
      renderDiffInternal (DiffEntry.mk ModifyChange StringFieldKind "Title" "a" "b" [] :: rest) 1 =
      renderEntry 1 (.mk ModifyChange StringFieldKind "Title" "a" "b" []) ++
      renderDiffInternal rest 1)) :=
  C7_render_line 1 (.mk ModifyChange StringFieldKind "Title" "a" "b" []) (Or.inl rfl)

/-! ### Claim C8: determinism -/

/-- With nodup keys, association-list lookup is invariant under permutation. -/
theorem lookup_eq_of_perm {l1 l2 : List (String × Schema)} (h : l1.Perm l2)
    (nd : (l1.map Prod.fst).Nodup) (k : String) :
    List.lookup k l1 = List.lookup k l2 := by
  induction h with
  | nil => rfl
  | cons x h ih =>
      obtain ⟨kx, vx⟩ := x
      rw [List.map_cons] at nd
      have nd2 := (List.nodup_cons.mp nd).2
      cases hbeq : (k == kx) <;> simp [List.lookup, hbeq, ih nd2]
  | swap x y l =>
      obtain ⟨kx, vx⟩ := x
      obtain ⟨ky, vy⟩ := y
      simp only [List.map_cons, List.nodup_cons, List.mem_cons] at nd
      have hxy : ¬ ky = kx := fun hc => nd.1 (Or.inl hc)
      by_cases h1 : k = ky
      · subst h1
        have hb1 : (k == k) = true := by simp
        have hb2 : (k == kx) = false := beq_eq_false_iff_ne.mpr fun hc => hxy hc
        simp [List.lookup, hb1, hb2]
      · by_cases h2 : k = kx
        · subst h2
          have hb1 : (k == ky) = false := beq_eq_false_iff_ne.mpr h1
          simp [List.lookup, hb1]
        · have hb1 : (k == ky) = false := beq_eq_false_iff_ne.mpr h1
          have hb2 : (k == kx) = false := beq_eq_false_iff_ne.mpr h2
          simp [List.lookup, hb1, hb2]
  | trans h1 h2 ih1 ih2 =>
      rw [ih1 nd]
      exact ih2 ((h1.map Prod.fst).nodup_iff.mp nd)

theorem compareSchemas_congr (old old2 new new2 : Document) (cd : Bool)
    (hkeys : schemaKeys old new = schemaKeys old2 new2)
    (ho : ∀ k, lookupSchema old.Schemas k = lookupSchema old2.Schemas k)
    (hn : ∀ k, lookupSchema new.Schemas k = lookupSchema new2.Schemas k) :
    compareSchemas old new cd = compareSchemas old2 new2 cd := by
  rw [compareSchemas, compareSchemas, hkeys]
  congr 1
  apply List.map_congr_left
  intro k _
  unfold schemaEntryForKey
  rw [ho k, hn k]

/-- C8: the comparison is deterministic: it is a pure function of its inputs,
and in particular the schema map's representation order (the one thing Go's
map iteration leaves unspecified) does not influence the output — permuting
either association list (with the keys nodup, as in a Go map) leaves the
diff tree unchanged, because keys are collected and sorted before traversal. -/
theorem C8_determinism (A B : Document) (M : DiffOptions)
    (sA sB : List (String × Schema))
    (hA : A.Schemas.Perm sA) (hB : B.Schemas.Perm sB)
    (ndA : (A.Schemas.map Prod.fst).Nodup) (ndB : (B.Schemas.map Prod.fst).Nodup) :
    DiffDocs A B M = DiffDocs { A with Schemas := sA } { B with Schemas := sB } M := by
  have hsch : compareSchemas A B (Has M DescriptionOption) =
      compareSchemas { A with Schemas := sA } { B with Schemas := sB }
        (Has M DescriptionOption) := by
    apply compareSchemas_congr
    · rw [schemaKeys, schemaKeys]
      apply sortStrings_eq_of_perm
      exact ((hA.map Prod.fst).append (hB.map Prod.fst)).dedup
    · intro k
      exact lookup_eq_of_perm hA ndA k
    · intro k
      exact lookup_eq_of_perm hB ndB k
  rw [DiffDocs, DiffDocs, hsch]
  rfl

theorem C8_determinism_witness :
    DiffDocs w8Doc emptyDoc AllOptions =
      DiffDocs { w8Doc with Schemas := [("b", w8SchemaB), ("a", w8SchemaA)] }
        { emptyDoc with Schemas := [] } AllOptions :=
  C8_determinism w8Doc emptyDoc AllOptions
    [("b", w8SchemaB), ("a", w8SchemaA)] []
    (List.Perm.swap ("b", w8SchemaB) ("a", w8SchemaA) [])
    (List.Perm.refl _)
    (by decide)
    (by decide)

end Disco
